import Mathlib

/-!
Shallow embedding of `src/script_scanner.py` (script-scanner repository).

The pipeline's pure core is translated function by function:

* `load`-time name table (`character_mapping`, a Python dict built by
  successive insertion of unique keys) is modelled as an association list
  `List (String × String)` in insertion order; `dict.get` is `lookup`.
* `Levenshtein.distance` (classic insert/delete/substitute, cost 1 each)
  is `lev`, written with a fuel argument so that it reduces in the kernel;
  fuel `s.length + t.length` always suffices because every recursive call
  consumes one unit of fuel and at least one character.
* Python's `min(..., key = lambda x: x[1])` over a non-empty sequence keeps
  the first element attaining the minimal second component; this is
  `minBySnd`.  `min` over an empty sequence raises `ValueError`.
* numpy `uint8` arithmetic wraps modulo 256 (`u8sub`); `cv2.COLOR_BGR2GRAY`
  is OpenCV's fixed-point luma `(B*1868 + G*9617 + R*4899 + 8192) >> 14`.
* Python `int(...)` truncates toward zero; `(width - 2100) * 0.5` is exact
  in binary floating point, so `int((width - 2100) * 0.5)` is exactly
  truncation of `(width - 2100) / 2` (`halfTrunc`).  In `normalize_height`
  the float expression `int(height * (w / h))` is modelled by an exact
  binary64 evaluation: CPython's `int / int` is the correctly rounded
  double of the quotient and `int * float` the correctly rounded double
  of the product, both round-to-nearest-ties-to-even on 53-bit
  significands; doubles are carried as exact significand/exponent pairs
  (`floatDivNat`, `floatMulInt`, `truncFloat`), with unbounded exponent
  range, faithful whenever no overflow or subnormal occurs — image
  dimensions never approach either regime.
* Python `str.strip()` removes exactly the characters `str.isspace()`
  accepts (`pyIsSpace` lists the full Unicode set).
* Exceptions (`RuntimeError`, `ValueError`) are modelled with `Except`.
-/

/-- Python exception kinds raised by the translated code: `RuntimeError`
with its message, and the `ValueError` raised by `min()` on an empty
sequence. -/
inductive PyError where
  | runtimeError (msg : String)
  | valueError
deriving DecidableEq, Repr

deriving instance DecidableEq for Except

/-- Levenshtein edit distance with explicit fuel (structural recursion on
the fuel).  With fuel at least `s.length + t.length` the fuel never runs
out, since each recursive call consumes one unit of fuel together with at
least one character of `s ++ t`. -/
def levFuel : Nat → List Char → List Char → Nat
  | _, [], t => t.length
  | _, s, [] => s.length
  | 0, _, _ => 0
  | fuel + 1, a :: s, b :: t =>
    if a = b then levFuel fuel s t
    else 1 + min (levFuel fuel (a :: s) t) (min (levFuel fuel s (b :: t)) (levFuel fuel s t))

/-- `Levenshtein.distance` of the Python `Levenshtein` package: classic
edit distance with insert/delete/substitute each of cost 1. -/
def lev (s t : List Char) : Nat := levFuel (s.length + t.length) s t

/-- `character_mapping.keys()`: the keys of the association list, in
insertion order. -/
def keys (tbl : List (String × String)) : List String := tbl.map Prod.fst

/-- `character_mapping.get(name)`: first value stored under `name`, if any
(keys of a Python dict are unique, so first = only). -/
def lookup : List (String × String) → String → Option String
  | [], _ => none
  | (k, v) :: rest, name => if k = name then some v else lookup rest name

/-- Python `min(seq, key = lambda x: x[1])` on the non-empty sequence
`p :: l`: fold that replaces the current best only on a strictly smaller
second component, hence keeps the first minimizer. -/
def minBySnd : (String × Nat) → List (String × Nat) → (String × Nat)
  | best, [] => best
  | best, q :: rest => minBySnd (if q.2 < best.2 then q else best) rest

/-- One iteration of the loop body of
`map_scanned_character_names_to_json_equivalent` (src lines 77-93):
exact `dict.get` lookup, otherwise `min` over `(key, distance)` pairs for
all table keys — which raises `ValueError` when the table is empty — then
the distance-3 acceptance test.  `closest_match` is always a table key, so
the final `character_mapping.get(closest_match)` never yields `None`; the
`getD` default is unreachable. -/
def resolve_one (tbl : List (String × String)) (name : String) : Except PyError String :=
  match lookup tbl name with
  | some v => Except.ok v
  | none =>
    match keys tbl with
    | [] => Except.error PyError.valueError
    | k :: ks =>
      let best := minBySnd (k, lev name.data k.data) (ks.map fun key => (key, lev name.data key.data))
      if best.2 ≤ 3 then Except.ok ((lookup tbl best.1).getD "")
      else Except.error (PyError.runtimeError ("Failed to find a match for character name: " ++ name))

/-- `map_scanned_character_names_to_json_equivalent` (src lines 73-95):
resolve the names in order, aborting with the raised exception at the
first failure. -/
def map_scanned_character_names_to_json_equivalent
    (tbl : List (String × String)) : List String → Except PyError (List String)
  | [] => Except.ok []
  | n :: ns =>
    match resolve_one tbl n with
    | Except.error e => Except.error e
    | Except.ok v =>
      match map_scanned_character_names_to_json_equivalent tbl ns with
      | Except.error e => Except.error e
      | Except.ok vs => Except.ok (v :: vs)

/-- `A4_HEIGHT_PIXELS` (src line 12). -/
def A4_HEIGHT_PIXELS : Nat := 2970

/-- `A4_WIDTH_PIXELS` (src line 13). -/
def A4_WIDTH_PIXELS : Nat := 2100

/-- numpy `uint8` subtraction `a - b` of channel values, which wraps
modulo 256; `numpy.abs` is the identity on `uint8` values, so the value
the source stores in `diff_rg`/`diff_rb`/`diff_gb` is exactly this. -/
def u8sub (a b : Nat) : Nat := (a % 256 + 256 - b % 256) % 256

/-- `cv2.cvtColor(image, cv2.COLOR_BGR2GRAY)` on one pixel: OpenCV's
fixed-point luma `(B*1868 + G*9617 + R*4899 + (1 << 13)) >> 14`, the
14-bit fixed-point form of `0.114 B + 0.587 G + 0.299 R` with rounding
(channel order of an OpenCV image is B, G, R). -/
def bgr2gray (b g r : Nat) : Nat := (b * 1868 + g * 9617 + r * 4899 + 8192) / 16384

/-- `remove_color` (src lines 31-45) restricted to one pixel with channels
`(b, g, r)` (channels 0, 1, 2 of the BGR image): the inter-channel
differences are computed in `uint8` arithmetic, the pixel is set to 255
when any of them exceeds the threshold, and is the grayscale conversion
otherwise. -/
def remove_color_pixel (threshold b g r : Nat) : Nat :=
  if threshold < u8sub b g ∨ threshold < u8sub b r ∨ threshold < u8sub g r then 255
  else bgr2gray b g r

/-- True absolute difference of two channel values. -/
def absDiff (a b : Nat) : Nat := max a b - min a b

/-- The Chroma Filter pixel contract as the specification words it:
a pixel all of whose true inter-channel absolute differences are within
the threshold is converted to luma grayscale, any other pixel becomes
pure white. -/
def remove_color_pixel_spec (threshold b g r : Nat) : Nat :=
  if threshold < absDiff b g ∨ threshold < absDiff b r ∨ threshold < absDiff g r then 255
  else bgr2gray b g r

/-- Python `int(d * 0.5)` for an integer `d` of small magnitude:
`d * 0.5` is exact in binary floating point and `int` truncates toward
zero, so the result is truncation of `d / 2` toward zero. -/
def halfTrunc (d : Int) : Int := if 0 ≤ d then d / 2 else -((-d) / 2)

/-- `round(d / 2)` in Python for an integer `d`: round-half-to-even.
Used only to state what the specification's `round` formula would give. -/
def roundHalfEvenDiv2 (d : Int) : Int :=
  if d % 2 = 0 then d / 2
  else if ((d - 1) / 2) % 2 = 0 then (d - 1) / 2 else (d - 1) / 2 + 1

/-- `crop_to_character_names` (src lines 54-71), modelled on the image
width, returning the slice bounds `(y_min, y_max, x_min, x_max)` of the
crop `script_image[y_min:y_max, x_min:x_max]`: widths below 1500 raise
`RuntimeError`; otherwise the reference x-bounds (180, 414) are both
shifted by `left_margin_size = int((width - A4_WIDTH_PIXELS) * 0.5)`. -/
def crop_to_character_names (width : Nat) : Except PyError (Int × Int × Int × Int) :=
  if width < 1500 then
    Except.error (PyError.runtimeError
      ("Image is narrower than expected. width = " ++ toString width ++ "."))
  else
    Except.ok (140, 2925, 180 + halfTrunc ((width : Int) - (A4_WIDTH_PIXELS : Int)),
      414 + halfTrunc ((width : Int) - (A4_WIDTH_PIXELS : Int)))

/-- Floor of the base-2 logarithm (0 for inputs 0 and 1), written with
fuel so that it is structural and reduces in the kernel; fuel `n`
suffices since the argument at least halves each step. -/
def log2Fuel : Nat → Nat → Nat
  | 0, _ => 0
  | fuel + 1, n => if n < 2 then 0 else log2Fuel fuel (n / 2) + 1

/-- `natLog2 n` is the position of the highest set bit of `n`
(`n.bit_length() - 1` in Python terms), i.e. `2 ^ natLog2 n ≤ n` for
`n ≥ 1`. -/
def natLog2 (n : Nat) : Nat := log2Fuel n n

/-- Round `p / 2 ^ g` to the nearest integer, ties to even — the IEEE-754
significand rounding step, exact because `p` is an integer. -/
def roundHalfEvenShift (p g : Nat) : Nat :=
  if g = 0 then p
  else
    let q := p / 2 ^ g
    let r := p % 2 ^ g
    let half := 2 ^ (g - 1)
    if r < half then q
    else if half < r then q + 1
    else if q % 2 = 0 then q else q + 1

/-- CPython `n / d` on positive ints: the correctly rounded binary64
quotient (round-to-nearest-ties-to-even on a 53-bit significand),
returned exactly as a pair `(m, t)` of value `m * 2 ^ t` with
`2 ^ 52 ≤ m ≤ 2 ^ 53`.  The scaled numerator `n * 2 ^ S` with
`S = 54 + natLog2 d` guarantees `N ≥ 2 ^ 53`, so `g ≥ 1` and the
quotient `q = N / 2 ^ g` sits in the correct binade; the remainders `rem`
(dropped bits of `N`) and `r` (exact division remainder) decide the
rounding direction, with a tie exactly when `rem` is half and `r = 0`.
Exponent range is unbounded: faithful whenever the quotient neither
overflows nor is subnormal, which image dimensions never approach. -/
def floatDivNat (n d : Nat) : Nat × Int :=
  let S := 54 + natLog2 d
  let N := n * 2 ^ S / d
  let r := n * 2 ^ S % d
  let g := natLog2 N - 52
  let q := N / 2 ^ g
  let rem := N % 2 ^ g
  let half := 2 ^ (g - 1)
  let m := if rem < half then q
           else if half < rem then q + 1
           else if r = 0 then (if q % 2 = 0 then q else q + 1)
           else q + 1
  (m, (g : Int) - (S : Int))

/-- CPython `c * x` for a nonnegative int `c < 2 ^ 53` (hence exactly
representable) and a nonneg double `x = (m, t)`: the exact integer
product of significands, rounded back to 53 bits ties-to-even. -/
def floatMulInt (c : Nat) (mt : Nat × Int) : Nat × Int :=
  let p := c * mt.1
  let L := natLog2 p
  if L ≤ 52 then (p, mt.2)
  else (roundHalfEvenShift p (L - 52), mt.2 + ((L - 52 : Nat) : Int))

/-- Python `int(x)` of a nonnegative double `(m, t)`: truncation toward
zero, which on nonnegative values is the floor `m * 2 ^ t` or
`m / 2 ^ (-t)`. -/
def truncFloat (mt : Nat × Int) : Nat :=
  match mt.2 with
  | Int.ofNat k => mt.1 * 2 ^ k
  | Int.negSucc k => mt.1 / 2 ^ (k + 1)

/-- `normalize_height` (src lines 47-52), modelled on the dimensions:
given original height `h`, width `w` and the target `height`, the resized
image has dimensions `(height, int(height * (w / h)))`, where
`aspect_ratio = w / h` is the correctly rounded double of the quotient,
the product is one more correctly rounded double operation, and `int`
truncates. -/
def normalize_height_dims (h w height : Nat) : Nat × Nat :=
  (height, truncFloat (floatMulInt height (floatDivNat w h)))

/-- `round(a / b)` on naturals, rounding half up; used only to state the
specification's `round` formula at concrete inputs where every rounding
convention agrees. -/
def natRoundDiv (a b : Nat) : Nat := (2 * a + b) / (2 * b)

/-- The characters Python's `str.strip()` removes: exactly those with
`str.isspace()` true — U+0009–U+000D, U+001C–U+001F, space, U+0085,
U+00A0, U+1680, U+2000–U+200A, U+2028, U+2029, U+202F, U+205F and
U+3000. -/
def pyIsSpace (c : Char) : Bool :=
  (9 ≤ c.toNat && c.toNat ≤ 13) || (28 ≤ c.toNat && c.toNat ≤ 31)
  || c.toNat = 32 || c.toNat = 133 || c.toNat = 160 || c.toNat = 5760
  || (8192 ≤ c.toNat && c.toNat ≤ 8202) || c.toNat = 8232 || c.toNat = 8233
  || c.toNat = 8239 || c.toNat = 8287 || c.toNat = 12288

/-- Python `str.strip()` on the character list: drop whitespace from both
ends. -/
def pyStripChars (l : List Char) : List Char :=
  ((l.dropWhile pyIsSpace).reverse.dropWhile pyIsSpace).reverse

/-- Python `str.strip()`. -/
def pyStrip (s : String) : String := String.mk (pyStripChars s.data)

/-- Python `s.split(sep, 1)` for a non-empty separator, as the optional
pair (text before, text after) of the leftmost occurrence of `sep`;
`none` when `sep` does not occur, in which case `split` returns `[s]`. -/
def splitOnceChars (sep : List Char) : List Char → Option (List Char × List Char)
  | [] => none
  | c :: rest =>
    if sep.isPrefixOf (c :: rest) then some ([], (c :: rest).drop sep.length)
    else
      match splitOnceChars sep rest with
      | some (pre, post) => some (c :: pre, post)
      | none => none

/-- `extract_script_meta_data` (src lines 127-152), modelled on the raw
recognized title text `scanned_title_raw`: strip it, split once on the
substring `"by"`; on two parts return both parts stripped, otherwise
return the raw text (line 150 assigns the unstripped `scanned_title_raw`)
with an empty author. -/
def extract_script_meta_data (scanned_title_raw : String) : String × String :=
  match splitOnceChars ("by".data) (pyStripChars scanned_title_raw.data) with
  | some (pre, post) => (String.mk (pyStripChars pre), String.mk (pyStripChars post))
  | none => (scanned_title_raw, "")

/-- `json.replace("\n", "").replace("\r", "")` (src line 163): remove all
line feeds, then all carriage returns. -/
def stripBreaks (s : String) : String :=
  String.mk ((s.data.filter (fun c => c != '\n')).filter (fun c => c != '\r'))

/-- `combine_to_json_string` (src lines 154-165): build the bracketed
meta object, append `,"<name>"` for each character by a left fold, close
the bracket, and strip line breaks. -/
def combine_to_json_string (characters : List String) (script_name author : String) : String :=
  stripBreaks
    ((characters.foldl (fun acc name => acc ++ ",\"" ++ name ++ "\"")
      ("[\x7b\"id\":\"_meta\",\"author\":\"" ++ author ++ "\",\"name\":\"" ++ script_name ++ "\"\x7d"))
      ++ "]")

/-- The Document Assembler output shape as the specification words it:
the meta object first, then each canonical id as a bare quoted string in
roster order, built by structural recursion on the roster. -/
def rosterTail : List String → String
  | [] => "]"
  | n :: ns => ",\"" ++ n ++ "\"" ++ rosterTail ns

/-- Specification-side Script Document: meta object followed by the
quoted roster. -/
def scriptDocumentShape (characters : List String) (script_name author : String) : String :=
  "[\x7b\"id\":\"_meta\",\"author\":\"" ++ author ++ "\",\"name\":\"" ++ script_name ++ "\"\x7d"
    ++ rosterTail characters

/-! Helper lemmas about the embedded operations. -/

theorem minBySnd_mem (p : String × Nat) (l : List (String × Nat)) : minBySnd p l ∈ p :: l := by
  induction l generalizing p with
  | nil => simp [minBySnd]
  | cons q rest ih =>
    simp only [minBySnd]
    rcases List.mem_cons.mp (ih (if q.2 < p.2 then q else p)) with h1 | h1
    · rw [h1]
      split
      · exact List.mem_cons_of_mem _ (List.mem_cons_self _ _)
      · exact List.mem_cons_self _ _
    · exact List.mem_cons_of_mem _ (List.mem_cons_of_mem _ h1)

theorem minBySnd_le (p : String × Nat) (l : List (String × Nat)) :
    ∀ q ∈ p :: l, (minBySnd p l).2 ≤ q.2 := by
  induction l generalizing p with
  | nil =>
    intro q hq
    rcases List.mem_cons.mp hq with h | h
    · subst h; exact Nat.le_refl _
    · exact absurd h (List.not_mem_nil q)
  | cons r rest ih =>
    intro q hq
    simp only [minBySnd]
    by_cases hr : r.2 < p.2
    · rw [if_pos hr]
      have hbase := ih r _ (List.mem_cons_self _ _)
      rcases List.mem_cons.mp hq with h | h
      · subst h; omega
      · rcases List.mem_cons.mp h with h2 | h2
        · subst h2; exact hbase
        · exact ih r q (List.mem_cons_of_mem _ h2)
    · rw [if_neg hr]
      have hbase := ih p _ (List.mem_cons_self _ _)
      rcases List.mem_cons.mp hq with h | h
      · subst h; exact hbase
      · rcases List.mem_cons.mp h with h2 | h2
        · subst h2; omega
        · exact ih p q (List.mem_cons_of_mem _ h2)

theorem lookup_eq_none_iff (tbl : List (String × String)) (name : String) :
    lookup tbl name = none ↔ name ∉ keys tbl := by
  induction tbl with
  | nil => simp [lookup, keys]
  | cons kv rest ih =>
    obtain ⟨k, v⟩ := kv
    simp only [lookup, keys, List.map_cons, List.mem_cons]
    by_cases h : k = name
    · simp [h]
    · rw [if_neg h, ih]
      constructor
      · intro hn hc
        rcases hc with hc | hc
        · exact h hc.symm
        · exact hn hc
      · intro hn hm
        exact hn (Or.inr hm)

theorem exists_lookup_of_mem_keys (tbl : List (String × String)) (k : String)
    (h : k ∈ keys tbl) : ∃ v, lookup tbl k = some v := by
  induction tbl with
  | nil => simp [keys] at h
  | cons kv rest ih =>
    obtain ⟨k0, v0⟩ := kv
    by_cases hk : k0 = k
    · exact ⟨v0, by simp [lookup, hk]⟩
    · simp only [keys, List.map_cons, List.mem_cons] at h
      rcases h with h | h
      · exact absurd h.symm hk
      · obtain ⟨v, hv⟩ := ih h
        exact ⟨v, by simp [lookup, hk, hv]⟩

theorem levFuel_self (fuel : Nat) (s : List Char) (h : s.length ≤ fuel) :
    levFuel fuel s s = 0 := by
  induction s generalizing fuel with
  | nil => cases fuel <;> simp [levFuel]
  | cons a s ih =>
    cases fuel with
    | zero => simp at h
    | succ f =>
      simp only [levFuel, if_pos rfl]
      exact ih f (by simpa using Nat.le_of_succ_le_succ h)

theorem lev_self (s : List Char) : lev s s = 0 :=
  levFuel_self (s.length + s.length) s (Nat.le_add_right _ _)

theorem resolve_one_exact (tbl : List (String × String)) (name v : String)
    (h : lookup tbl name = some v) : resolve_one tbl name = Except.ok v := by
  simp [resolve_one, h]

theorem resolve_one_eq_fuzzy (tbl : List (String × String)) (name : String)
    (hnone : lookup tbl name = none) (kh : String) (kt : List String)
    (hkeys : keys tbl = kh :: kt) :
    resolve_one tbl name =
      (if (minBySnd (kh, lev name.data kh.data)
            (kt.map fun key => (key, lev name.data key.data))).2 ≤ 3
       then Except.ok ((lookup tbl (minBySnd (kh, lev name.data kh.data)
            (kt.map fun key => (key, lev name.data key.data))).1).getD "")
       else Except.error (PyError.runtimeError
            ("Failed to find a match for character name: " ++ name))) := by
  simp [resolve_one, hnone, hkeys]

theorem resolve_one_close (tbl : List (String × String)) (name : String)
    (hnone : lookup tbl name = none) (k : String) (hk : k ∈ keys tbl)
    (hd : lev name.data k.data ≤ 3) :
    ∃ k0 v, k0 ∈ keys tbl ∧ lev name.data k0.data ≤ 3
      ∧ (∀ k1 ∈ keys tbl, lev name.data k0.data ≤ lev name.data k1.data)
      ∧ lookup tbl k0 = some v
      ∧ resolve_one tbl name = Except.ok v := by
  rcases hkeys : keys tbl with _ | ⟨kh, kt⟩
  · rw [hkeys] at hk
    exact absurd hk (List.not_mem_nil k)
  · have hrw := resolve_one_eq_fuzzy tbl name hnone kh kt hkeys
    have hmem := minBySnd_mem (kh, lev name.data kh.data)
      (kt.map fun key => (key, lev name.data key.data))
    have hle := minBySnd_le (kh, lev name.data kh.data)
      (kt.map fun key => (key, lev name.data key.data))
    have hmap : (kh, lev name.data kh.data) ::
        (kt.map fun key => (key, lev name.data key.data))
        = (kh :: kt).map fun key => (key, lev name.data key.data) := by simp
    rw [hmap] at hmem hle
    obtain ⟨k0, hk0mem, hk0eq⟩ := List.mem_map.mp hmem
    have hk0mem' : k0 ∈ keys tbl := by rw [hkeys]; exact hk0mem
    have hkmem : (fun key => (key, lev name.data key.data)) k ∈
        (kh :: kt).map fun key => (key, lev name.data key.data) :=
      List.mem_map_of_mem _ (by rw [← hkeys]; exact hk)
    have hbk : (minBySnd (kh, lev name.data kh.data)
        (kt.map fun key => (key, lev name.data key.data))).2 ≤ lev name.data k.data :=
      hle _ hkmem
    have hb2 : (minBySnd (kh, lev name.data kh.data)
        (kt.map fun key => (key, lev name.data key.data))).2 = lev name.data k0.data := by
      rw [← hk0eq]
    have hb1 : (minBySnd (kh, lev name.data kh.data)
        (kt.map fun key => (key, lev name.data key.data))).1 = k0 := by
      rw [← hk0eq]
    have hk0le : lev name.data k0.data ≤ 3 := by
      rw [← hb2]; exact Nat.le_trans hbk hd
    obtain ⟨v, hv⟩ := exists_lookup_of_mem_keys tbl k0 hk0mem'
    refine ⟨k0, v, hk0mem, hk0le, ?_, hv, ?_⟩
    · intro k1 hk1
      have hk1mem : (fun key => (key, lev name.data key.data)) k1 ∈
          (kh :: kt).map fun key => (key, lev name.data key.data) :=
        List.mem_map_of_mem _ hk1
      have := hle _ hk1mem
      rw [hb2] at this
      exact this
    · rw [hrw, if_pos (by rw [hb2]; exact hk0le), hb1, hv]
      rfl

theorem resolve_one_far (tbl : List (String × String)) (name : String)
    (hne : keys tbl ≠ [])
    (h1 : lookup tbl name = none)
    (h2 : ∀ k ∈ keys tbl, 3 < lev name.data k.data) :
    resolve_one tbl name = Except.error (PyError.runtimeError
      ("Failed to find a match for character name: " ++ name)) := by
  rcases hkeys : keys tbl with _ | ⟨kh, kt⟩
  · exact absurd hkeys hne
  · have hrw := resolve_one_eq_fuzzy tbl name h1 kh kt hkeys
    have hmem := minBySnd_mem (kh, lev name.data kh.data)
      (kt.map fun key => (key, lev name.data key.data))
    have hmap : (kh, lev name.data kh.data) ::
        (kt.map fun key => (key, lev name.data key.data))
        = (kh :: kt).map fun key => (key, lev name.data key.data) := by simp
    rw [hmap] at hmem
    obtain ⟨k0, hk0mem, hk0eq⟩ := List.mem_map.mp hmem
    have hb2 : (minBySnd (kh, lev name.data kh.data)
        (kt.map fun key => (key, lev name.data key.data))).2 = lev name.data k0.data := by
      rw [← hk0eq]
    have hfar : 3 < lev name.data k0.data := h2 k0 (by rw [hkeys]; exact hk0mem)
    rw [hrw, if_neg (by rw [hb2]; omega)]

theorem resolve_one_ok_of_good (tbl : List (String × String)) (m : String)
    (hgood : m ∈ keys tbl ∨ ∃ k ∈ keys tbl, lev m.data k.data ≤ 3) :
    ∃ v, resolve_one tbl m = Except.ok v := by
  cases hl : lookup tbl m with
  | some v => exact ⟨v, resolve_one_exact tbl m v hl⟩
  | none =>
    rcases hgood with hg | ⟨k, hk, hd⟩
    · exact absurd hg ((lookup_eq_none_iff tbl m).mp hl)
    · obtain ⟨k0, v, _, _, _, _, hres⟩ := resolve_one_close tbl m hl k hk hd
      exact ⟨v, hres⟩

theorem mem_keys_of_lookup_eq_some (tbl : List (String × String)) (name v : String)
    (h : lookup tbl name = some v) : name ∈ keys tbl := by
  by_contra hn
  rw [(lookup_eq_none_iff tbl name).mpr hn] at h
  exact Option.noConfusion h

/-! Claim theorems for the Name Resolver. -/

/-- C1: Name Resolver success behaviour.  For every raw name and Name
Table: (1) a name present verbatim as a table key resolves to that key's
canonical id; (2) otherwise, whenever some key is within edit distance 3,
resolution emits the canonical id of a key of minimum edit distance;
(3) in particular, a name within distance 3 of exactly one key and more
than 3 from all others resolves to that key's id. -/
theorem C1_name_resolver_success (tbl : List (String × String)) (name : String) :
    (∀ v, lookup tbl name = some v → resolve_one tbl name = Except.ok v)
    ∧ (lookup tbl name = none →
        ∀ k ∈ keys tbl, lev name.data k.data ≤ 3 →
        ∃ k0 v, k0 ∈ keys tbl ∧ lev name.data k0.data ≤ 3
          ∧ (∀ k1 ∈ keys tbl, lev name.data k0.data ≤ lev name.data k1.data)
          ∧ lookup tbl k0 = some v ∧ resolve_one tbl name = Except.ok v)
    ∧ (∀ k v, k ∈ keys tbl → lookup tbl k = some v → lev name.data k.data ≤ 3 →
        (∀ k1 ∈ keys tbl, k1 ≠ k → 3 < lev name.data k1.data) →
        resolve_one tbl name = Except.ok v) := by
  refine ⟨fun v hv => resolve_one_exact tbl name v hv, ?_, ?_⟩
  · intro hnone k hk hd
    exact resolve_one_close tbl name hnone k hk hd
  · intro k v hk hkv hd huniq
    cases hl : lookup tbl name with
    | some w =>
      have hmemname : name ∈ keys tbl := mem_keys_of_lookup_eq_some tbl name w hl
      have hnk : name = k := by
        by_contra hne
        have := huniq name hmemname hne
        rw [lev_self name.data] at this
        omega
      subst hnk
      exact resolve_one_exact tbl name v hkv
    | none =>
      obtain ⟨k0, v0, hk0mem, hk0le, _, hk0look, hres⟩ :=
        resolve_one_close tbl name hl k hk hd
      have hk0k : k0 = k := by
        by_contra hne
        have := huniq k0 hk0mem hne
        omega
      subst hk0k
      rw [hkv] at hk0look
      rw [Option.some.injEq] at hk0look
      rw [hk0look]
      exact hres

/-- C1 witness: a concrete name one edit away from exactly one key of a
concrete two-entry table resolves to that key's id. -/
theorem C1_name_resolver_success_witness :
    resolve_one [("abc", "x"), ("zzzzzzzz", "y")] "abd" = Except.ok "x" :=
  (C1_name_resolver_success [("abc", "x"), ("zzzzzzzz", "y")] "abd").2.2 "abc" "x"
    (by decide) (by decide) (by decide) (by decide)

/-- C2: Name Resolver failure is all-or-nothing.  Over a non-empty table,
if the input list contains a name that is neither an exact key nor within
edit distance 3 of any key, and every name before it is resolvable, then
resolution of the whole list is the `RuntimeError` carrying that raw
name, and no resolved list is returned. -/
theorem C2_all_or_nothing (tbl : List (String × String)) (pre post : List String) (n : String)
    (hne : keys tbl ≠ [])
    (hbad1 : n ∉ keys tbl)
    (hbad2 : ∀ k ∈ keys tbl, 3 < lev n.data k.data)
    (hpre : ∀ m ∈ pre, m ∈ keys tbl ∨ ∃ k ∈ keys tbl, lev m.data k.data ≤ 3) :
    map_scanned_character_names_to_json_equivalent tbl (pre ++ n :: post)
      = Except.error (PyError.runtimeError ("Failed to find a match for character name: " ++ n))
    ∧ ∀ out, map_scanned_character_names_to_json_equivalent tbl (pre ++ n :: post)
        ≠ Except.ok out := by
  have herr := resolve_one_far tbl n hne ((lookup_eq_none_iff tbl n).mpr hbad1) hbad2
  have hmain : map_scanned_character_names_to_json_equivalent tbl (pre ++ n :: post)
      = Except.error (PyError.runtimeError ("Failed to find a match for character name: " ++ n)) := by
    induction pre with
    | nil => simp [map_scanned_character_names_to_json_equivalent, herr]
    | cons m pre ih =>
      obtain ⟨v, hv⟩ := resolve_one_ok_of_good tbl m (hpre m (List.mem_cons_self _ _))
      have ih1 := ih (fun m1 hm1 => hpre m1 (List.mem_cons_of_mem _ hm1))
      simp [map_scanned_character_names_to_json_equivalent, hv, ih1]
  refine ⟨hmain, fun out hout => ?_⟩
  rw [hmain] at hout
  exact Except.noConfusion hout

/-- C2 witness: a roster whose middle name is far from every key of a
concrete table aborts with the `RuntimeError` carrying that name. -/
theorem C2_all_or_nothing_witness :
    map_scanned_character_names_to_json_equivalent [("abc", "x"), ("zzzzzzzz", "y")]
        (["abc"] ++ "qqqqqqqq" :: ["abc"])
      = Except.error (PyError.runtimeError
          ("Failed to find a match for character name: " ++ "qqqqqqqq")) :=
  (C2_all_or_nothing [("abc", "x"), ("zzzzzzzz", "y")] ["abc"] ["abc"] "qqqqqqqq"
    (by decide) (by decide) (by decide) (by decide)).1

/-- C5: order and length preservation.  Whenever the Name Resolver
succeeds on a list of recognized names, the resolved list has exactly one
canonical id per input name and the i-th output is the resolution of the
i-th input. -/
theorem C5_order_preservation (tbl : List (String × String)) (names out : List String)
    (h : map_scanned_character_names_to_json_equivalent tbl names = Except.ok out) :
    out.length = names.length
    ∧ ∀ i (hi : i < names.length) (hi2 : i < out.length),
        resolve_one tbl (names.get ⟨i, hi⟩) = Except.ok (out.get ⟨i, hi2⟩) := by
  induction names generalizing out with
  | nil =>
    simp only [map_scanned_character_names_to_json_equivalent, Except.ok.injEq] at h
    subst h
    exact ⟨rfl, fun i hi => absurd hi (Nat.not_lt_zero i)⟩
  | cons nm rest ih =>
    cases hr : resolve_one tbl nm with
    | error e => simp [map_scanned_character_names_to_json_equivalent, hr] at h
    | ok v =>
      cases hrest : map_scanned_character_names_to_json_equivalent tbl rest with
      | error e => simp [map_scanned_character_names_to_json_equivalent, hr, hrest] at h
      | ok vs =>
        simp only [map_scanned_character_names_to_json_equivalent, hr, hrest,
          Except.ok.injEq] at h
        subst h
        obtain ⟨hlen, hidx⟩ := ih vs hrest
        refine ⟨by simp [hlen], ?_⟩
        intro i hi hi2
        cases i with
        | zero => simpa using hr
        | succ j =>
          simp only [List.get_cons_succ]
          exact hidx j (by simpa using hi) (by simpa using hi2)

/-- C5 witness: the second entry of a concrete successful resolution is
the resolution of the second input name. -/
theorem C5_order_preservation_witness :
    resolve_one [("abc", "x"), ("zzzzzzzz", "y")]
        ((["abc", "abd"] : List String).get ⟨1, by decide⟩)
      = Except.ok ((["x", "x"] : List String).get ⟨1, by decide⟩) :=
  (C5_order_preservation [("abc", "x"), ("zzzzzzzz", "y")] ["abc", "abd"] ["x", "x"]
    (by decide)).2 1 (by decide) (by decide)

/-- C3: the Chroma Filter pixel contract fails on the code.  Because the
source subtracts `uint8` channels (wrapping modulo 256) before `numpy.abs`,
the near-grey pixel (B,G,R) = (100,101,100), whose true inter-channel
differences are all ≤ 1, is forced to white instead of its grayscale
value 101; and the strongly colored pixel (0,230,230), with |B−G| = 230,
is kept and grayscaled to 204 instead of being forced to white. -/
theorem C3_chroma_filter_bug :
    remove_color_pixel 30 100 101 100 = 255
    ∧ remove_color_pixel_spec 30 100 101 100 = bgr2gray 100 101 100
    ∧ bgr2gray 100 101 100 = 101
    ∧ remove_color_pixel 30 0 230 230 = bgr2gray 0 230 230
    ∧ remove_color_pixel_spec 30 0 230 230 = 255
    ∧ bgr2gray 0 230 230 = 204 := by decide

/-- C10: resolving any name against an empty Name Table fails with the
generic `ValueError` of `min()` on an empty sequence, never with the
`RuntimeError` that carries the unmatched name. -/
theorem C10_empty_table (name : String) (ns : List String) :
    resolve_one [] name = Except.error PyError.valueError
    ∧ map_scanned_character_names_to_json_equivalent [] (name :: ns)
        = Except.error PyError.valueError
    ∧ ∀ msg, resolve_one [] name ≠ Except.error (PyError.runtimeError msg) := by
  refine ⟨rfl, rfl, ?_⟩
  intro msg hcontra
  simp [resolve_one, lookup, keys] at hcontra

/-- C10 witness: the whole-list resolution of a concrete name over the
empty table is the generic `ValueError`. -/
theorem C10_empty_table_witness :
    map_scanned_character_names_to_json_equivalent [] ("abc" :: [])
      = Except.error PyError.valueError :=
  (C10_empty_table "abc" []).2.1

/-! Characterization of Python's `split(sep, 1)`. -/

theorem splitOnceChars_eq_none_iff (sep : List Char) (hsep : sep ≠ []) (l : List Char) :
    splitOnceChars sep l = none ↔ ¬ sep <:+: l := by
  induction l with
  | nil =>
    simp only [splitOnceChars, true_iff]
    intro hinf
    exact hsep (List.infix_nil.mp hinf)
  | cons c rest ih =>
    simp only [splitOnceChars]
    by_cases hp : sep.isPrefixOf (c :: rest)
    · rw [if_pos hp]
      constructor
      · intro h
        exact Option.noConfusion h
      · intro h
        exact ((h (List.IsPrefix.isInfix (List.isPrefixOf_iff_prefix.mp hp))).elim)
    · rw [if_neg hp]
      cases hs : splitOnceChars sep rest with
      | some pr =>
        obtain ⟨pre, post⟩ := pr
        constructor
        · intro h
          exact Option.noConfusion h
        · intro h
          exfalso
          apply h
          rw [List.infix_cons_iff]
          refine Or.inr ?_
          by_contra hni
          rw [← ih] at hni
          rw [hs] at hni
          exact Option.noConfusion hni
      | none =>
        constructor
        · intro _
          rw [List.infix_cons_iff]
          rintro (hpre | hinf)
          · exact hp (List.isPrefixOf_iff_prefix.mpr hpre)
          · exact (ih.mp hs) hinf
        · intro _
          rfl

theorem splitOnceChars_eq_some_spec (sep : List Char) (l pre post : List Char)
    (h : splitOnceChars sep l = some (pre, post)) :
    l = pre ++ sep ++ post
    ∧ ∀ pre1 post1, l = pre1 ++ sep ++ post1 → pre.length ≤ pre1.length := by
  induction l generalizing pre post with
  | nil => simp [splitOnceChars] at h
  | cons c rest ih =>
    simp only [splitOnceChars] at h
    by_cases hp : sep.isPrefixOf (c :: rest)
    · rw [if_pos hp] at h
      rw [Option.some.injEq, Prod.mk.injEq] at h
      obtain ⟨h1, h2⟩ := h
      subst h1
      subst h2
      refine ⟨?_, fun pre1 post1 _ => Nat.zero_le _⟩
      have hpfx := List.isPrefixOf_iff_prefix.mp hp
      have htake := List.prefix_iff_eq_take.mp hpfx
      conv_lhs => rw [← List.take_append_drop sep.length (c :: rest)]
      rw [← htake]
      simp
    · rw [if_neg hp] at h
      cases hs : splitOnceChars sep rest with
      | none =>
        rw [hs] at h
        exact Option.noConfusion h
      | some pr =>
        obtain ⟨pre0, post0⟩ := pr
        obtain ⟨ihl, ihmin⟩ := ih pre0 post0 hs
        rw [hs] at h
        rw [Option.some.injEq, Prod.mk.injEq] at h
        obtain ⟨h1, h2⟩ := h
        subst h2
        constructor
        · rw [← h1]
          simp only [List.cons_append, List.append_assoc]
          rw [List.append_assoc] at ihl
          exact congrArg (c :: ·) ihl
        · intro pre1 post1 hdec
          cases pre1 with
          | nil =>
            exfalso
            apply hp
            rw [List.isPrefixOf_iff_prefix]
            simp only [List.nil_append] at hdec
            exact ⟨post1, hdec.symm⟩
          | cons c1 pre1 =>
            simp only [List.cons_append, List.cons.injEq] at hdec
            obtain ⟨_, hrest⟩ := hdec
            have := ihmin pre1 post1 hrest
            rw [← h1]
            simp only [List.length_cons]
            omega

theorem infix_take_of_decomp (l p sep q : List Char) (hl : l = p ++ sep ++ q)
    (m : Nat) (hm : p.length + sep.length ≤ m) : sep <:+: l.take m := by
  subst hl
  rw [List.append_assoc, List.take_append_eq_append_take]
  rw [List.take_of_length_le (Nat.le_trans (Nat.le_add_right _ _) hm)]
  rw [List.take_append_eq_append_take]
  rw [List.take_of_length_le (by omega)]
  exact ⟨p, q.take (m - p.length - sep.length), by rw [List.append_assoc]⟩

/-- C4 (amended): the Metadata Parser splits the stripped title text once
at the leftmost occurrence of the substring `"by"`; if `"by"` occurs, the
result is (text before, text after), each trimmed; if it does not occur,
the result is the entire raw text, untrimmed, with an empty author.  The
examples of the specification hold (including one with a trailing
non-breaking space, whitespace to Python's `strip`), and the parser is a
total function. -/
theorem C4_metadata_split (raw : String) :
    (∀ pre post, pyStripChars raw.data = pre ++ ("by".data) ++ post →
        ¬ (("by".data) <:+: (pyStripChars raw.data).take (pre.length + 1)) →
        extract_script_meta_data raw
          = (String.mk (pyStripChars pre), String.mk (pyStripChars post)))
    ∧ (¬ (("by".data) <:+: pyStripChars raw.data) →
        extract_script_meta_data raw = (raw, ""))
    ∧ extract_script_meta_data "Trouble Brewing by John Doe" = ("Trouble Brewing", "John Doe")
    ∧ extract_script_meta_data "Trouble Brewing" = ("Trouble Brewing", "")
    ∧ extract_script_meta_data "A by B\xa0" = ("A", "B") := by
  refine ⟨?_, ?_, by decide, by decide, by decide⟩
  · intro pre post hdec hleft
    cases hs : splitOnceChars ("by".data) (pyStripChars raw.data) with
    | none =>
      exfalso
      exact (splitOnceChars_eq_none_iff ("by".data) (by decide) _).mp hs
        ⟨pre, post, hdec.symm⟩
    | some pr =>
      obtain ⟨p0, q0⟩ := pr
      obtain ⟨hl0, hmin0⟩ := splitOnceChars_eq_some_spec ("by".data) _ p0 q0 hs
      have hle : p0.length ≤ pre.length := hmin0 pre post hdec
      have hge : pre.length ≤ p0.length := by
        by_contra hlt
        apply hleft
        refine infix_take_of_decomp _ p0 ("by".data) q0 hl0 (pre.length + 1) ?_
        simp only [Nat.not_le] at hlt
        have hby : ("by".data).length = 2 := rfl
        omega
      have hlen : pre.length = p0.length := Nat.le_antisymm hge hle
      have hpre : pre = p0 := by
        have e1 : pre = (pyStripChars raw.data).take pre.length := by
          rw [hdec, List.append_assoc]
          exact (List.take_left ..).symm
        have e2 : p0 = (pyStripChars raw.data).take p0.length := by
          rw [hl0, List.append_assoc]
          exact (List.take_left ..).symm
        rw [e1, e2, hlen]
      subst hpre
      have hpost : post = q0 := by
        rw [hdec] at hl0
        exact List.append_cancel_left hl0
      subst hpost
      simp [extract_script_meta_data, hs]
  · intro hni
    have hs := (splitOnceChars_eq_none_iff ("by".data) (by decide) _).mpr hni
    simp [extract_script_meta_data, hs]

/-- C4 counterexample: on the raw title text with a trailing newline and
no occurrence of `"by"`, the parser returns the raw text unstripped, not
the trimmed text the claim states. -/
theorem C4_metadata_counterexample :
    extract_script_meta_data "Trouble Brewing\n" = ("Trouble Brewing\n", "")
    ∧ pyStrip "Trouble Brewing\n" = "Trouble Brewing"
    ∧ extract_script_meta_data "Trouble Brewing\n" ≠ ("Trouble Brewing", "") := by decide

/-- C4 witness: the two-part case at the specification's own example. -/
theorem C4_metadata_split_witness :
    extract_script_meta_data "Trouble Brewing by John Doe"
      = (String.mk (pyStripChars ("Trouble Brewing ".data)),
         String.mk (pyStripChars (" John Doe".data))) :=
  (C4_metadata_split "Trouble Brewing by John Doe").1
    ("Trouble Brewing ".data) (" John Doe".data) (by decide) (by decide)

/-! Document Assembler. -/

theorem foldl_quote_append (l : List String) (acc : String) :
    (l.foldl (fun acc name => acc ++ ",\"" ++ name ++ "\"") acc) ++ "]"
      = acc ++ rosterTail l := by
  induction l generalizing acc with
  | nil => simp [rosterTail]
  | cons n ns ih =>
    simp only [List.foldl_cons, rosterTail]
    rw [ih]
    simp [String.append_assoc]

theorem stripBreaks_data (s : String) :
    (stripBreaks s).data
      = (s.data.filter (fun c => c != '\n')).filter (fun c => c != '\r') := rfl

/-- C6: Document Assembler output form.  The serialized output is exactly
the line-break-stripped form of the array whose first element is the meta
object and whose remaining elements are the canonical ids as bare quoted
strings in roster order, and the final string contains no newline or
carriage-return character. -/
theorem C6_document_assembler (characters : List String) (script_name author : String) :
    combine_to_json_string characters script_name author
      = stripBreaks (scriptDocumentShape characters script_name author)
    ∧ '\n' ∉ (combine_to_json_string characters script_name author).data
    ∧ '\r' ∉ (combine_to_json_string characters script_name author).data := by
  refine ⟨?_, ?_, ?_⟩
  · unfold combine_to_json_string scriptDocumentShape
    rw [foldl_quote_append]
  · show '\n' ∉ (stripBreaks _).data
    rw [stripBreaks_data]
    intro hmem
    simp [List.mem_filter] at hmem
  · show '\r' ∉ (stripBreaks _).data
    rw [stripBreaks_data]
    intro hmem
    simp [List.mem_filter] at hmem

/-- C6 witness: the assembled document of a concrete roster and metadata
equals the stripped specification shape. -/
theorem C6_document_assembler_witness :
    combine_to_json_string ["scarlet_woman"] "Trouble Brewing" "John Doe"
      = stripBreaks (scriptDocumentShape ["scarlet_woman"] "Trouble Brewing" "John Doe") :=
  (C6_document_assembler ["scarlet_woman"] "Trouble Brewing" "John Doe").1

/-- C7: layout guard.  The character-column crop fails (with the
`RuntimeError` of src line 60) exactly on images of width strictly below
the fixed threshold 1500, and every image at least that wide produces a
crop without error. -/
theorem C7_layout_guard (w : Nat) :
    ((∃ e, crop_to_character_names w = Except.error e) ↔ w < 1500)
    ∧ (1500 ≤ w → ∃ b, crop_to_character_names w = Except.ok b) := by
  by_cases h : w < 1500
  · refine ⟨⟨fun _ => h, fun _ => ⟨PyError.runtimeError
      ("Image is narrower than expected. width = " ++ toString w ++ "."),
      by simp [crop_to_character_names, h]⟩⟩, ?_⟩
    intro hge
    omega
  · refine ⟨⟨?_, fun hlt => absurd hlt h⟩, ?_⟩
    · rintro ⟨e, he⟩
      simp [crop_to_character_names, h] at he
    · intro _
      exact ⟨(140, 2925, 180 + halfTrunc ((w : Int) - (A4_WIDTH_PIXELS : Int)),
        414 + halfTrunc ((w : Int) - (A4_WIDTH_PIXELS : Int))),
        by simp [crop_to_character_names, h]⟩

/-- C7 witness: a reference-width page is accepted. -/
theorem C7_layout_guard_witness : ∃ b, crop_to_character_names 2100 = Except.ok b :=
  (C7_layout_guard 2100).2 (by decide)

/-- C8 (amended): for every accepted page width the margin is the
truncation toward zero of `(width − 2100) / 2` — Python's
`int((width - A4_WIDTH_PIXELS) * 0.5)` — not round-half-to-even, and it
is added to both reference x-bounds 180 and 414; for width 2400 the
margin is 150. -/
theorem C8_margin_correction (w : Nat) (h : 1500 ≤ w) :
    crop_to_character_names w
      = Except.ok (140, 2925, 180 + halfTrunc ((w : Int) - 2100),
          414 + halfTrunc ((w : Int) - 2100))
    ∧ halfTrunc ((2400 : Int) - 2100) = 150 := by
  refine ⟨?_, by decide⟩
  have hnlt : ¬ w < 1500 := Nat.not_lt.mpr h
  simp [crop_to_character_names, hnlt, A4_WIDTH_PIXELS]

/-- C8 counterexample: at accepted width 2103 the code's margin is the
truncation 1, while the claim's `round((2103 − 2100) / 2)` is 2, so the
crop the claim predicts differs from the one the code produces. -/
theorem C8_margin_counterexample :
    crop_to_character_names 2103
      = Except.ok (140, 2925, 180 + halfTrunc ((2103 : Int) - 2100),
          414 + halfTrunc ((2103 : Int) - 2100))
    ∧ halfTrunc ((2103 : Int) - 2100) = 1
    ∧ roundHalfEvenDiv2 ((2103 : Int) - 2100) = 2
    ∧ crop_to_character_names 2103
        ≠ Except.ok (140, 2925, 180 + roundHalfEvenDiv2 ((2103 : Int) - 2100),
            414 + roundHalfEvenDiv2 ((2103 : Int) - 2100)) := by decide

/-- C8 witness: the amended margin formula at the specification's own
width-2400 example. -/
theorem C8_margin_correction_witness :
    crop_to_character_names 2400
      = Except.ok (140, 2925, 180 + halfTrunc ((2400 : Int) - 2100),
          414 + halfTrunc ((2400 : Int) - 2100)) :=
  (C8_margin_correction 2400 (by decide)).1

/-- C9 (amended): normalization maps any image of positive dimensions to
the fixed target height, computing the width as the binary64 evaluation
of `int(height * (w / h))`; this truncated floating-point product can
fall below both the claimed rounding and the exact
`floor(2970 * w / h)`: at (h,w) = (1000,2300) and (5,23) it yields 6830
and 13661, one below the exact floors 6831 and 13662, and at
(h,w) = (7,6) it yields 2545 (equal to the exact floor) where the claim
rounds to 2546.  The dimension computation rejects no positive-dimension
input. -/
theorem C9_normalizer_dims (h w : Nat) (_hh : 0 < h) (_hw : 0 < w) :
    (normalize_height_dims h w A4_HEIGHT_PIXELS).1 = A4_HEIGHT_PIXELS
    ∧ (normalize_height_dims h w A4_HEIGHT_PIXELS).2
        = truncFloat (floatMulInt A4_HEIGHT_PIXELS (floatDivNat w h))
    ∧ (normalize_height_dims 1000 2300 A4_HEIGHT_PIXELS).2 = 6830
    ∧ 2970 * 2300 / 1000 = 6831
    ∧ (normalize_height_dims 5 23 A4_HEIGHT_PIXELS).2 = 13661
    ∧ 2970 * 23 / 5 = 13662
    ∧ (normalize_height_dims 7 6 A4_HEIGHT_PIXELS).2 = 2970 * 6 / 7 := by
  exact ⟨rfl, rfl, by decide, by decide, by decide, by decide, by decide⟩

/-- C9 counterexample: an image of height 7 and width 6 is resized to
width `int(2970 * (6 / 7)) = 2545` in binary64 arithmetic, while the
claim's rounding formula gives 2546. -/
theorem C9_normalizer_counterexample :
    normalize_height_dims 7 6 A4_HEIGHT_PIXELS = (2970, 2545)
    ∧ natRoundDiv (2970 * 6) 7 = 2546
    ∧ normalize_height_dims 7 6 A4_HEIGHT_PIXELS ≠ (2970, natRoundDiv (2970 * 6) 7) := by decide

/-- C9 witness: the amended statement instantiated at the concrete image
size 6 by 7. -/
theorem C9_normalizer_dims_witness :
    (normalize_height_dims 7 6 A4_HEIGHT_PIXELS).1 = A4_HEIGHT_PIXELS
    ∧ (normalize_height_dims 7 6 A4_HEIGHT_PIXELS).2
        = truncFloat (floatMulInt A4_HEIGHT_PIXELS (floatDivNat 6 7))
    ∧ (normalize_height_dims 1000 2300 A4_HEIGHT_PIXELS).2 = 6830
    ∧ 2970 * 2300 / 1000 = 6831
    ∧ (normalize_height_dims 5 23 A4_HEIGHT_PIXELS).2 = 13661
    ∧ 2970 * 23 / 5 = 13662
    ∧ (normalize_height_dims 7 6 A4_HEIGHT_PIXELS).2 = 2970 * 6 / 7 :=
  C9_normalizer_dims 7 6 (by decide) (by decide)
